import Mathlib

/-!
Verification of the pam-u2f mapping codec (`pam-u2f-mapping/src/lib.rs`).

The codec parses `pamu2fcfg(1)` mapping files: one line per user, each line
`user:handle,public,kind,+flag+flag...` with further `:`-separated key
entries.  We re-express the Rust code over `List Char` (one Lean function per
Rust function, with Rust's `str::split`, `str::lines` and
`collect::<Result<_, _>>` modelled explicitly) and prove or refute the
specification's claims about it.
-/

namespace U2F

/-- Equality of fallible results is decidable when both components' is. -/
instance {ε α : Type} [DecidableEq ε] [DecidableEq α] : DecidableEq (Except ε α) := fun a b =>
  match a, b with
  | .error e, .error f =>
    if h : e = f then .isTrue (by rw [h]) else .isFalse fun hh => h (Except.error.inj hh)
  | .error _, .ok _ => .isFalse fun hh => Except.noConfusion hh
  | .ok _, .error _ => .isFalse fun hh => Except.noConfusion hh
  | .ok x, .ok y =>
    if h : x = y then .isTrue (by rw [h]) else .isFalse fun hh => h (Except.ok.inj hh)

/-- Strings are modelled as lists of characters. -/
abbrev Str := List Char

/-- The characters of a string literal. -/
def chars (s : String) : Str := s.toList

/-- Model of Rust `str::split(c)` restricted to a one-character pattern:
splits on every occurrence of `c`.  It always yields at least one piece;
the empty input yields one empty piece, and a separator at either end
yields an empty piece there, exactly as in Rust. -/
def splitOnChar (c : Char) : Str → List Str
  | [] => [[]]
  | x :: xs =>
    if x = c then [] :: splitOnChar c xs
    else
      match splitOnChar c xs with
      | [] => [[x]] -- never taken: the recursive call yields at least one piece
      | p :: ps => (x :: p) :: ps

/-- Strip one trailing carriage return, as Rust `str::lines` does to every
line that was terminated by a line feed. -/
def stripCR (l : Str) : Str :=
  if l.getLast? = some '\r' then l.dropLast else l

/-- Model of Rust `str::lines`: split on `'\n'`; a trailing line feed does
not produce a final empty line; every piece that was terminated by a line
feed loses one trailing `'\r'`, while a final piece without a terminator is
returned verbatim. -/
def rustLines (s : Str) : List Str :=
  match (splitOnChar '\n' s).reverse with
  | [] => []
  | lst :: revInit =>
    if lst = [] then (revInit.map stripCR).reverse
    else (revInit.map stripCR).reverse ++ [lst]

/-- Model of `struct Key`: one key entry of a mapping line.  Field order and
names follow the Rust declaration: `handle` (the key handle), `public` (the
public key data), `kind` (the key algorithm), `flags`. -/
structure Key where
  handle : Str
  public : Str
  kind : Str
  flags : List Str
deriving DecidableEq

/-- Model of `struct Mapping`: the keys associated with one username,
one line of the mapping file. -/
structure Mapping where
  user : Str
  keys : List Key
deriving DecidableEq

/-- Model of `struct MappingFile`: the contents of a mapping file. -/
structure MappingFile where
  mappings : List Mapping
deriving DecidableEq

/-- Model of `enum Error`: the parse failures of the codec. -/
inductive Error where
  | UserMissing
  | HandleMissing
  | KindMissing
  | FlagsMissing
  | BadFlags
deriving DecidableEq

/-- The body of the `for field in fields` loop of `Mapping::from_str`,
applied to one `:`-separated key entry.  The entry is split on `','` and the
pieces are taken positionally, exactly as the source draws them from the
iterator: the first piece is bound to `public`, the second to `handle`
(failing with `HandleMissing` when absent), the third to `kind`
(`KindMissing`), the fourth to `flags` (`FlagsMissing`); pieces after the
fourth are never requested from the iterator.  The flags piece is then split
on `'+'`; its first piece must be empty, else `BadFlags`; the remaining
pieces become the flag list. -/
def parseKey (field : Str) : Except Error Key :=
  match splitOnChar ',' field with
  | [] => Except.error Error.HandleMissing -- never taken: split yields ≥ 1 piece
  | public :: rest =>
    match rest with
    | [] => Except.error Error.HandleMissing
    | handle :: rest =>
      match rest with
      | [] => Except.error Error.KindMissing
      | kind :: rest =>
        match rest with
        | [] => Except.error Error.FlagsMissing
        | flags :: _ =>
          match splitOnChar '+' flags with
          | [] => Except.error Error.BadFlags -- never taken: split yields ≥ 1 piece
          | first :: flagList =>
            if first = [] then Except.ok ⟨handle, public, kind, flagList⟩
            else Except.error Error.BadFlags

/-- Left-to-right traversal of a list by a fallible function, stopping at
the first error: the semantics both of the `?`-operator inside the key loop
of `Mapping::from_str` and of `collect::<Result<Vec<_>, Error>>` in
`MappingFile::from_str`. -/
def mapME {α β : Type} (f : α → Except Error β) : List α → Except Error (List β)
  | [] => Except.ok []
  | x :: xs =>
    match f x with
    | Except.error e => Except.error e
    | Except.ok y => (mapME f xs).map fun ys => y :: ys

/-- Model of `Mapping::from_str`: split the line on `':'`; the first segment
is the username (`UserMissing` if the iterator yields nothing, which a split
never does); every following segment is parsed as one key. -/
def Mapping.from_str (s : Str) : Except Error Mapping :=
  match splitOnChar ':' s with
  | [] => Except.error Error.UserMissing -- never taken: split yields ≥ 1 segment
  | user :: fields =>
    (mapME parseKey fields).map fun keys => ⟨user, keys⟩

/-- Model of `MappingFile::from_str`: parse every line, collecting into a
`MappingFile` or stopping at the first failing line. -/
def MappingFile.from_str (s : Str) : Except Error MappingFile :=
  (mapME Mapping.from_str (rustLines s)).map fun ms => ⟨ms⟩

/-- The flags part written by `Display for Mapping`: each flag prefixed by
`'+'`, in order. -/
def flagsText (flags : List Str) : Str :=
  (flags.map fun f => '+' :: f).flatten

/-- The text that `Display for Mapping` writes for one key:
`":{handle},{public},{kind}," ` followed by the flags part. -/
def Key.encode (k : Key) : Str :=
  ':' :: (k.handle ++ ',' :: (k.public ++ ',' :: (k.kind ++ ',' :: flagsText k.flags)))

/-- Model of `impl Display for Mapping`: the username followed by every
encoded key. -/
def Mapping.encode (m : Mapping) : Str :=
  m.user ++ (m.keys.map Key.encode).flatten

/-- The key-entry parse that claim C3 ascribes to the code, stated from the
spec's words for comparison with `parseKey`: the flags group is the literal
remainder of the segment after the third comma, so any later comma stays
inside the flags text instead of being dropped. -/
def parseKeyRemainderSpec (field : Str) : Except Error Key :=
  match splitOnChar ',' field with
  | [] => Except.error Error.HandleMissing
  | public :: rest =>
    match rest with
    | [] => Except.error Error.HandleMissing
    | handle :: rest =>
      match rest with
      | [] => Except.error Error.KindMissing
      | kind :: rest =>
        match rest with
        | [] => Except.error Error.FlagsMissing
        | r :: rs =>
          match splitOnChar '+' (List.intercalate [','] (r :: rs)) with
          | [] => Except.error Error.BadFlags
          | first :: flagList =>
            if first = [] then Except.ok ⟨handle, public, kind, flagList⟩
            else Except.error Error.BadFlags

/-- Splitting always yields at least one piece, as the source's comment
`split will always yield at least one item` records. -/
theorem splitOnChar_ne_nil (c : Char) (s : Str) : splitOnChar c s ≠ [] := by
  cases s with
  | nil => simp [splitOnChar]
  | cons x xs =>
    by_cases h : x = c
    · simp [splitOnChar, h]
    · simp only [splitOnChar, if_neg h]
      cases splitOnChar c xs <;> simp

/-- Splitting at a leading separator yields a leading empty piece. -/
theorem splitOnChar_cons_self (c : Char) (xs : Str) :
    splitOnChar c (c :: xs) = [] :: splitOnChar c xs := by
  simp [splitOnChar]

/-- A leading non-separator character joins the first piece of the split of
the remainder. -/
theorem splitOnChar_cons_of_ne {c x : Char} {xs p : Str} {ps : List Str} (h : x ≠ c)
    (hs : splitOnChar c xs = p :: ps) :
    splitOnChar c (x :: xs) = (x :: p) :: ps := by
  simp only [splitOnChar, if_neg h, hs]

/-- A separator-free string splits into itself alone. -/
theorem splitOnChar_of_not_mem {c : Char} {s : Str} (h : c ∉ s) : splitOnChar c s = [s] := by
  induction s with
  | nil => rfl
  | cons x xs ih =>
    simp only [List.mem_cons, not_or] at h
    have hx : x ≠ c := fun hh => h.1 hh.symm
    rw [splitOnChar_cons_of_ne hx (ih h.2)]

/-- Splitting past a separator that follows a separator-free prefix yields
the prefix and then the split of the suffix. -/
theorem splitOnChar_append_cons (c : Char) {xs : Str} (ys : Str) (h : c ∉ xs) :
    splitOnChar c (xs ++ c :: ys) = xs :: splitOnChar c ys := by
  induction xs with
  | nil =>
    rw [List.nil_append, splitOnChar_cons_self]
  | cons a as ih =>
    simp only [List.mem_cons, not_or] at h
    have ha : a ≠ c := fun hh => h.1 hh.symm
    rw [List.cons_append, splitOnChar_cons_of_ne ha (ih h.2)]

/-- A trailing separator contributes one trailing empty piece. -/
theorem splitOnChar_append_sep (c : Char) (s : Str) :
    splitOnChar c (s ++ [c]) = splitOnChar c s ++ [[]] := by
  induction s with
  | nil => simp [splitOnChar]
  | cons x xs ih =>
    by_cases h : x = c
    · subst h
      rw [List.cons_append, splitOnChar_cons_self, splitOnChar_cons_self, List.cons_append]
      rw [ih]
    · cases hs : splitOnChar c xs with
      | nil => exact absurd hs (splitOnChar_ne_nil c xs)
      | cons p ps =>
        have h1 : splitOnChar c (xs ++ [c]) = p :: (ps ++ [[]]) := by
          rw [ih, hs, List.cons_append]
        rw [List.cons_append, splitOnChar_cons_of_ne h h1,
          splitOnChar_cons_of_ne h hs, List.cons_append]

/-- No piece of a split contains the separator. -/
theorem not_mem_of_mem_splitOnChar {c : Char} {s t : Str}
    (h : t ∈ splitOnChar c s) : c ∉ t := by
  induction s generalizing t with
  | nil =>
    simp only [splitOnChar, List.mem_singleton] at h
    simp [h]
  | cons x xs ih =>
    by_cases hx : x = c
    · simp only [splitOnChar, if_pos hx, List.mem_cons] at h
      rcases h with h | h
      · simp [h]
      · exact ih h
    · simp only [splitOnChar, if_neg hx] at h
      cases hs : splitOnChar c xs with
      | nil => exact absurd hs (splitOnChar_ne_nil c xs)
      | cons p ps =>
        rw [hs] at h
        simp only [List.mem_cons] at h
        rcases h with h | h
        · subst h
          have hp : c ∉ p := ih (by rw [hs]; exact List.mem_cons_self p ps)
          simp only [List.mem_cons, not_or]
          exact ⟨fun hh => hx hh.symm, hp⟩
        · exact ih (by rw [hs]; exact List.mem_cons_of_mem p h)

/-- Prepending to a non-empty list does not change its last element. -/
theorem getLast?_cons_of_ne_nil {α : Type} (a : α) {l : List α} (h : l ≠ []) :
    (a :: l).getLast? = l.getLast? := by
  cases l with
  | nil => exact absurd rfl h
  | cons b m => exact List.getLast?_cons_cons

/-- When the input is non-empty and does not end in the separator, the last
piece of its split is non-empty and ends as the input does. -/
theorem splitOnChar_getLast {c : Char} {s : Str} (h1 : s ≠ []) (h2 : s.getLast? ≠ some c) :
    ∃ L, (splitOnChar c s).getLast? = some L ∧ L ≠ [] ∧ L.getLast? = s.getLast? := by
  induction s with
  | nil => exact absurd rfl h1
  | cons x xs ih =>
    cases xs with
    | nil =>
      have hx : x ≠ c := by
        intro hh
        exact h2 (by simp [hh])
      refine ⟨[x], ?_, by simp, rfl⟩
      rw [splitOnChar_cons_of_ne hx (show splitOnChar c [] = [] :: [] from rfl)]
      rfl
    | cons x2 xs2 =>
      have hlast : (x :: x2 :: xs2).getLast? = (x2 :: xs2).getLast? :=
        List.getLast?_cons_cons
      have h2' : (x2 :: xs2).getLast? ≠ some c := by rw [← hlast]; exact h2
      obtain ⟨L, hL1, hL2, hL3⟩ := ih (by simp) h2'
      have hL3' : L.getLast? = (x :: x2 :: xs2).getLast? := by rw [hL3, hlast]
      by_cases hx : x = c
      · subst hx
        refine ⟨L, ?_, hL2, hL3'⟩
        rw [splitOnChar_cons_self,
          getLast?_cons_of_ne_nil _ (splitOnChar_ne_nil x (x2 :: xs2))]
        exact hL1
      · cases hs : splitOnChar c (x2 :: xs2) with
        | nil => exact absurd hs (splitOnChar_ne_nil c (x2 :: xs2))
        | cons p ps =>
          rw [hs] at hL1
          cases ps with
          | nil =>
            have hpL : p = L := by simpa using hL1
            subst hpL
            refine ⟨x :: p, ?_, by simp, ?_⟩
            · rw [splitOnChar_cons_of_ne hx hs]
              rfl
            · rw [getLast?_cons_of_ne_nil x hL2, hL3']
          | cons q qs =>
            refine ⟨L, ?_, hL2, hL3'⟩
            rw [splitOnChar_cons_of_ne hx hs, List.getLast?_cons_cons,
              ← List.getLast?_cons_cons]
            exact hL1

/-- Unfolding `rustLines` once the reverse of the split is exposed. -/
theorem rustLines_rev_cons {s l : Str} {r : List Str}
    (h : (splitOnChar '\n' s).reverse = l :: r) :
    rustLines s = if l = [] then (r.map stripCR).reverse
                  else (r.map stripCR).reverse ++ [l] := by
  unfold rustLines
  rw [h]

/-- Appending one line feed to a non-empty text that ends in neither a line
feed nor a carriage return does not change its lines. -/
theorem rustLines_append_newline {T : Str} (h0 : T ≠ [])
    (h1 : T.getLast? ≠ some '\n') (h2 : T.getLast? ≠ some '\r') :
    rustLines (T ++ ['\n']) = rustLines T := by
  obtain ⟨L, hL1, hL2, hL3⟩ := splitOnChar_getLast h0 h1
  cases hrev : (splitOnChar '\n' T).reverse with
  | nil =>
    have : splitOnChar '\n' T = [] := by simpa using congrArg List.reverse hrev
    exact absurd this (splitOnChar_ne_nil '\n' T)
  | cons l r =>
    have hlL : l = L := by
      have hh := List.head?_reverse (splitOnChar '\n' T)
      rw [hrev, hL1] at hh
      simpa using hh
    have hlne : l ≠ [] := hlL ▸ hL2
    have hrev2 : (splitOnChar '\n' (T ++ ['\n'])).reverse = [] :: l :: r := by
      rw [splitOnChar_append_sep, List.reverse_append, hrev]
      rfl
    rw [rustLines_rev_cons hrev, rustLines_rev_cons hrev2, if_pos rfl, if_neg hlne]
    have hstrip : stripCR l = l := by
      unfold stripCR
      rw [hlL, hL3]
      exact if_neg h2
    simp [hstrip]

/-- Mapping a function over a fallible result is an error exactly when the
result is. -/
theorem except_map_error_iff {α β : Type} (x : Except Error α) (g : α → β) (e : Error) :
    x.map g = Except.error e ↔ x = Except.error e := by
  cases x <;> simp [Except.map]

/-- The traversal succeeds exactly on the pointwise successes, in order. -/
theorem mapME_ok_iff {α β : Type} (f : α → Except Error β) (xs : List α) (ys : List β) :
    mapME f xs = Except.ok ys ↔ List.Forall₂ (fun x y => f x = Except.ok y) xs ys := by
  induction xs generalizing ys with
  | nil => cases ys <;> simp [mapME]
  | cons a l ih =>
    cases hfa : f a with
    | error e =>
      simp only [mapME, hfa]
      constructor
      · intro h
        exact absurd h (by simp)
      · intro h
        cases ys with
        | nil => exact absurd h (by simp)
        | cons y ys' =>
          have := (List.forall₂_cons.mp h).1
          rw [hfa] at this
          exact absurd this (by simp)
    | ok y =>
      simp only [mapME, hfa]
      cases ys with
      | nil =>
        constructor
        · intro h
          cases hml : mapME f l <;> rw [hml] at h <;> simp [Except.map] at h
        · intro h
          exact absurd h (by simp)
      | cons y' ys' =>
        rw [List.forall₂_cons]
        constructor
        · intro h
          cases hml : mapME f l with
          | error e2 => rw [hml] at h; simp [Except.map] at h
          | ok zs =>
            rw [hml] at h
            simp only [Except.map, Except.ok.injEq, List.cons.injEq] at h
            exact ⟨by rw [hfa, h.1], (ih ys').mp (by rw [hml, h.2])⟩
        · rintro ⟨h1, h2⟩
          have hy : y = y' := by
            rw [hfa] at h1
            exact Except.ok.inj h1
          rw [(ih ys').mpr h2]
          simp [Except.map, hy]

/-- The traversal fails with `e` exactly when some element maps to the error
`e` and every element before it succeeds: the first failure aborts. -/
theorem mapME_error_iff {α β : Type} (f : α → Except Error β) (xs : List α) (e : Error) :
    mapME f xs = Except.error e ↔
      ∃ pre x post, xs = pre ++ x :: post
        ∧ (∀ p ∈ pre, ∃ y, f p = Except.ok y) ∧ f x = Except.error e := by
  induction xs with
  | nil =>
    simp only [mapME]
    constructor
    · intro h
      exact absurd h (by simp)
    · rintro ⟨pre, x, post, habs, -, -⟩
      cases pre <;> simp at habs
  | cons a l ih =>
    cases hfa : f a with
    | error e' =>
      simp only [mapME, hfa]
      constructor
      · intro h
        have he : e' = e := by simpa using h
        exact ⟨[], a, l, by simp, by simp, by rw [hfa, he]⟩
      · rintro ⟨pre, x, post, hdec, hpre, hx⟩
        cases pre with
        | nil =>
          simp only [List.nil_append, List.cons.injEq] at hdec
          rw [hdec.1] at hfa
          rw [hfa] at hx
          simpa using hx
        | cons b pre' =>
          simp only [List.cons_append, List.cons.injEq] at hdec
          obtain ⟨y, hy⟩ := hpre b (List.mem_cons_self b pre')
          rw [← hdec.1, hfa] at hy
          exact absurd hy (by simp)
    | ok y =>
      simp only [mapME, hfa]
      constructor
      · intro h
        have hml : mapME f l = Except.error e := (except_map_error_iff _ _ _).mp h
        obtain ⟨pre, x, post, hdec, hpre, hx⟩ := ih.mp hml
        refine ⟨a :: pre, x, post, by rw [hdec, List.cons_append], ?_, hx⟩
        intro p hp
        rcases List.mem_cons.mp hp with hpa | hp'
        · exact ⟨y, by rw [hpa, hfa]⟩
        · exact hpre p hp'
      · rintro ⟨pre, x, post, hdec, hpre, hx⟩
        rw [except_map_error_iff]
        cases pre with
        | nil =>
          simp only [List.nil_append, List.cons.injEq] at hdec
          rw [hdec.1] at hfa
          rw [hfa] at hx
          exact absurd hx (by simp)
        | cons b pre' =>
          simp only [List.cons_append, List.cons.injEq] at hdec
          exact ih.mpr ⟨pre', x, post, hdec.2,
            fun p hp => hpre p (List.mem_cons_of_mem b hp), hx⟩

/-- Claim C1 (code bug): decoding the canonical line
`alice:h,p,es256,+presence` and re-encoding does not reproduce it; the
parser binds the first subfield to `public` and the second to `handle`,
while the formatter writes `handle` before `public`, so the two blobs come
back swapped.  The repository's own `non_destructive` test asserts the
opposite. -/
theorem c1_roundtrip_swaps_blobs :
    (Mapping.from_str (chars "alice:h,p,es256,+presence")).map Mapping.encode
      = Except.ok (chars "alice:p,h,es256,+presence")
    ∧ chars "alice:p,h,es256,+presence" ≠ chars "alice:h,p,es256,+presence" := by
  exact ⟨rfl, by decide⟩

/-- Claim C2 (code bug): decode-encode-decode is not the identity on decoded
models: the model decoded from `alice:h,p,es256,+presence` has
`public = "h", handle = "p"`; encoding writes `alice:p,h,es256,+presence`,
which decodes to the model with the two blobs interchanged. -/
theorem c2_decode_encode_decode_swaps :
    Mapping.from_str (chars "alice:h,p,es256,+presence")
      = Except.ok ⟨chars "alice", [⟨chars "p", chars "h", chars "es256", [chars "presence"]⟩]⟩
    ∧ Mapping.from_str
        (Mapping.encode ⟨chars "alice", [⟨chars "p", chars "h", chars "es256", [chars "presence"]⟩]⟩)
      = Except.ok ⟨chars "alice", [⟨chars "h", chars "p", chars "es256", [chars "presence"]⟩]⟩
    ∧ (⟨chars "alice", [⟨chars "h", chars "p", chars "es256", [chars "presence"]⟩]⟩ : Mapping)
      ≠ ⟨chars "alice", [⟨chars "p", chars "h", chars "es256", [chars "presence"]⟩]⟩ := by
  exact ⟨rfl, rfl, by decide⟩

/-- Claim C4 (code bug): decoding `alice:H,P,es256,+presence` puts the first
subfield `"H"` into the `public` field and the second subfield `"P"` into
the `handle` field — not, as the claim and the repository's `parse` test
have it, the first into the credential-handle component. -/
theorem c4_first_subfield_goes_to_public :
    Mapping.from_str (chars "alice:H,P,es256,+presence")
      = Except.ok ⟨chars "alice", [⟨chars "P", chars "H", chars "es256", [chars "presence"]⟩]⟩
    ∧ chars "P" ≠ chars "H" := by
  exact ⟨rfl, by decide⟩

/-- Claim C5: a key entry with too few comma-separated subfields fails with
the error of the first missing position: no fourth subfield gives
`FlagsMissing`, no third gives `KindMissing`, no second gives
`HandleMissing`. -/
theorem c5_missing_field_errors :
    Mapping.from_str (chars "alice:H,P,es256") = Except.error Error.FlagsMissing
    ∧ Mapping.from_str (chars "alice:H,P") = Except.error Error.KindMissing
    ∧ Mapping.from_str (chars "alice:H") = Except.error Error.HandleMissing := by
  exact ⟨rfl, rfl, rfl⟩

/-- Claim C10: empty flag names pass through both directions unchanged: the
flags group `++pin` decodes to the flag list `["", "pin"]`, and encoding a
key whose flag list is `["", "pin"]` writes one `'+'` per flag, reproducing
the group text `++pin`. -/
theorem c10_empty_flags_roundtrip :
    Mapping.from_str (chars "alice:h,p,es256,++pin")
      = Except.ok ⟨chars "alice", [⟨chars "p", chars "h", chars "es256", [[], chars "pin"]⟩]⟩
    ∧ Key.encode ⟨chars "p", chars "h", chars "es256", [[], chars "pin"]⟩
      = chars ":p,h,es256,++pin" := by
  exact ⟨rfl, rfl⟩

/-- Claim C3, counterexample: on the segment `h,p,es256,+a,b` the code's
parse keeps only the fourth comma-separated piece `+a` as the flags group
and silently drops `b`, yielding flags `["a"]`, whereas the claimed
remainder reading keeps `+a,b` and yields flags `["a,b"]`. -/
theorem c3_counterexample :
    parseKey (chars "h,p,es256,+a,b")
      = Except.ok ⟨chars "p", chars "h", chars "es256", [chars "a"]⟩
    ∧ parseKeyRemainderSpec (chars "h,p,es256,+a,b")
      = Except.ok ⟨chars "p", chars "h", chars "es256", [chars "a,b"]⟩
    ∧ parseKey (chars "h,p,es256,+a,b") ≠ parseKeyRemainderSpec (chars "h,p,es256,+a,b") := by
  exact ⟨rfl, rfl, by decide⟩

/-- Claim C8, counterexample: appending a single `'\n'` to a text that does
not end in `'\n'` can change the decode.  Appended to the empty text it
manufactures one mapping with an empty user, and appended to `a\r` it makes
the carriage return disappear from the username. -/
theorem c8_counterexample :
    MappingFile.from_str (chars "\n") ≠ MappingFile.from_str (chars "")
    ∧ MappingFile.from_str (chars "\n") = Except.ok ⟨[⟨[], []⟩]⟩
    ∧ MappingFile.from_str (chars "") = Except.ok ⟨[]⟩
    ∧ MappingFile.from_str (chars "a\r\n") ≠ MappingFile.from_str (chars "a\r") := by
  exact ⟨by decide, rfl, rfl, by decide⟩

/-- Claim C3, amended: the flags group is the fourth comma-separated piece
of the key entry, and every piece after a fourth comma is silently dropped:
parsing an entry that splits into at least four pieces gives the same
result as parsing its first four pieces alone, so extra subfields can
produce no error at all. -/
theorem c3_flags_fourth_piece (field f1 f2 f3 f4 : Str) (rest : List Str)
    (hsplit : splitOnChar ',' field = f1 :: f2 :: f3 :: f4 :: rest) :
    parseKey field = parseKey (f1 ++ ',' :: (f2 ++ ',' :: (f3 ++ ',' :: f4))) := by
  have hm1 : ',' ∉ f1 := not_mem_of_mem_splitOnChar (by rw [hsplit]; simp)
  have hm2 : ',' ∉ f2 := not_mem_of_mem_splitOnChar (by rw [hsplit]; simp)
  have hm3 : ',' ∉ f3 := not_mem_of_mem_splitOnChar (by rw [hsplit]; simp)
  have hm4 : ',' ∉ f4 := not_mem_of_mem_splitOnChar (by rw [hsplit]; simp)
  have hfour : splitOnChar ',' (f1 ++ ',' :: (f2 ++ ',' :: (f3 ++ ',' :: f4)))
      = [f1, f2, f3, f4] := by
    rw [splitOnChar_append_cons _ _ hm1, splitOnChar_append_cons _ _ hm2,
      splitOnChar_append_cons _ _ hm3, splitOnChar_of_not_mem hm4]
  unfold parseKey
  rw [hsplit, hfour]

/-- Witness for the amended claim C3 at the concrete entry `a,b,c,+x,y`:
the piece `y` after the fourth comma does not change the parse. -/
theorem c3_witness :
    parseKey (chars "a,b,c,+x,y")
      = parseKey (chars "a" ++ ',' :: (chars "b" ++ ',' :: (chars "c" ++ ',' :: chars "+x"))) :=
  c3_flags_fourth_piece (chars "a,b,c,+x,y") (chars "a") (chars "b") (chars "c")
    (chars "+x") [chars "y"] rfl

/-- Parsing the key entry `h,p,es256,` followed by a comma-free flags group
reduces to the source's flags-group check on that group. -/
theorem parseKey_seg (g : Str) (hg : ',' ∉ g) :
    parseKey (chars "h,p,es256," ++ g)
      = match splitOnChar '+' g with
        | [] => Except.error Error.BadFlags
        | first :: flagList =>
          if first = [] then Except.ok ⟨chars "p", chars "h", chars "es256", flagList⟩
          else Except.error Error.BadFlags := by
  have hshape : chars "h,p,es256," ++ g
      = chars "h" ++ ',' :: (chars "p" ++ ',' :: (chars "es256" ++ ',' :: g)) := rfl
  have hseg : splitOnChar ',' (chars "h,p,es256," ++ g)
      = [chars "h", chars "p", chars "es256", g] := by
    rw [hshape, splitOnChar_append_cons _ _ (by decide),
      splitOnChar_append_cons _ _ (by decide),
      splitOnChar_append_cons _ _ (by decide), splitOnChar_of_not_mem hg]
  unfold parseKey
  rw [hseg]

/-- Claim C6: for a comma-free flags group `g` at the fourth position of a
key entry, decoding succeeds with no flags when `g` is empty, succeeds with
one flag per subsequent `'+'`-delimited piece in order when `g` starts with
`'+'`, and fails with `BadFlags` exactly when `g` is non-empty and does not
start with `'+'`; in particular `alice:H,P,es256,pin` fails with
`BadFlags`. -/
theorem c6_flags_group_rules (g : Str) (hg : ',' ∉ g) :
    (g = [] → parseKey (chars "h,p,es256," ++ g)
        = Except.ok ⟨chars "p", chars "h", chars "es256", []⟩)
    ∧ (∀ t : Str, g = '+' :: t → parseKey (chars "h,p,es256," ++ g)
        = Except.ok ⟨chars "p", chars "h", chars "es256", splitOnChar '+' t⟩)
    ∧ (parseKey (chars "h,p,es256," ++ g) = Except.error Error.BadFlags
        ↔ g ≠ [] ∧ g.head? ≠ some '+')
    ∧ Mapping.from_str (chars "alice:H,P,es256,pin") = Except.error Error.BadFlags := by
  rw [parseKey_seg g hg]
  refine ⟨?_, ?_, ?_, rfl⟩
  · rintro rfl
    rfl
  · rintro t rfl
    rw [splitOnChar_cons_self]
    rfl
  · cases g with
    | nil => decide
    | cons c0 t =>
      by_cases hc : c0 = '+'
      · subst hc
        rw [splitOnChar_cons_self]
        simp
      · cases hs : splitOnChar '+' t with
        | nil => exact absurd hs (splitOnChar_ne_nil '+' t)
        | cons p ps =>
          rw [splitOnChar_cons_of_ne hc hs]
          simp [hc]

/-- Witness for claim C6 at the concrete flags group `+pin`. -/
theorem c6_witness :
    parseKey (chars "h,p,es256," ++ '+' :: chars "pin")
      = Except.ok ⟨chars "p", chars "h", chars "es256", splitOnChar '+' (chars "pin")⟩ :=
  (c6_flags_group_rules ('+' :: chars "pin") (by decide)).2.1 (chars "pin") rfl

/-- Claim C7: decoding a multi-line text is all-or-nothing: it returns the
error `e` exactly when some line fails with `e` and every earlier line
decodes, and it succeeds exactly when the mappings are the per-line results
in line order. -/
theorem c7_all_or_nothing (s : Str) :
    (∀ e : Error, MappingFile.from_str s = Except.error e ↔
      ∃ pre l post, rustLines s = pre ++ l :: post
        ∧ (∀ p ∈ pre, ∃ m, Mapping.from_str p = Except.ok m)
        ∧ Mapping.from_str l = Except.error e)
    ∧ (∀ mf : MappingFile, MappingFile.from_str s = Except.ok mf ↔
      List.Forall₂ (fun l m => Mapping.from_str l = Except.ok m) (rustLines s) mf.mappings) := by
  constructor
  · intro e
    unfold MappingFile.from_str
    rw [except_map_error_iff, mapME_error_iff]
  · intro mf
    unfold MappingFile.from_str
    rw [← mapME_ok_iff]
    cases mf with
    | mk ms =>
      constructor
      · intro h
        cases hml : mapME Mapping.from_str (rustLines s) with
        | error e =>
          rw [hml] at h
          simp [Except.map] at h
        | ok zs =>
          rw [hml] at h
          simp only [Except.map, Except.ok.injEq, MappingFile.mk.injEq] at h
          rw [h]
      · intro h
        rw [h]
        rfl

/-- Witness for claim C7: on `a:x\nb` the first line fails with
`HandleMissing` and the whole decode returns exactly that error. -/
theorem c7_witness :
    MappingFile.from_str (chars "a:x\nb") = Except.error Error.HandleMissing :=
  ((c7_all_or_nothing (chars "a:x\nb")).1 Error.HandleMissing).mpr
    ⟨[], chars "a:x", [chars "b"], rfl, by simp, rfl⟩

/-- Claim C8, amended: for every non-empty text ending in neither a line
feed nor a carriage return, appending one `'\n'` does not change the
decode; and decoding the empty text yields the empty mapping sequence. -/
theorem c8_trailing_newline :
    (∀ T : Str, T ≠ [] → T.getLast? ≠ some '\n' → T.getLast? ≠ some '\r' →
      MappingFile.from_str (T ++ ['\n']) = MappingFile.from_str T)
    ∧ MappingFile.from_str [] = Except.ok ⟨[]⟩ := by
  refine ⟨?_, rfl⟩
  intro T h0 h1 h2
  unfold MappingFile.from_str
  rw [rustLines_append_newline h0 h1 h2]

/-- Witness for the amended claim C8 at the one-line text `a`. -/
theorem c8_witness :
    MappingFile.from_str (chars "a" ++ ['\n']) = MappingFile.from_str (chars "a") :=
  c8_trailing_newline.1 (chars "a") (by decide) (by decide) (by decide)

/-- The key parser never produces `UserMissing`. -/
theorem parseKey_error_ne {field : Str} {e : Error}
    (h : parseKey field = Except.error e) : e ≠ Error.UserMissing := by
  unfold parseKey at h
  repeat' split at h
  all_goals first
    | exact Except.noConfusion h
    | (injection h with h2; subst h2; decide)

/-- `Mapping::from_str` fails only inside a key entry, so never with
`UserMissing`. -/
theorem mapping_from_str_error_ne {s : Str} {e : Error}
    (h : Mapping.from_str s = Except.error e) : e ≠ Error.UserMissing := by
  cases hs : splitOnChar ':' s with
  | nil => exact absurd hs (splitOnChar_ne_nil ':' s)
  | cons user fields =>
    unfold Mapping.from_str at h
    rw [hs] at h
    have h' : (mapME parseKey fields).map (fun keys => (⟨user, keys⟩ : Mapping))
        = Except.error e := h
    rw [except_map_error_iff] at h'
    obtain ⟨pre, x, post, -, -, hx⟩ := (mapME_error_iff parseKey fields e).mp h'
    exact parseKey_error_ne hx

/-- `MappingFile::from_str` only forwards line errors. -/
theorem file_from_str_error_ne {s : Str} {e : Error}
    (h : MappingFile.from_str s = Except.error e) : e ≠ Error.UserMissing := by
  unfold MappingFile.from_str at h
  rw [except_map_error_iff] at h
  obtain ⟨pre, x, post, -, -, hx⟩ := (mapME_error_iff Mapping.from_str (rustLines s) e).mp h
  exact mapping_from_str_error_ne hx

/-- Claim C9: decoding never returns `UserMissing` — the `':'`-split always
yields a first segment, so the branch is unreachable at both the line and
the file level — and a line whose first segment is empty decodes to a valid
mapping with an empty username. -/
theorem c9_user_missing_unreachable :
    (∀ (s : Str) (e : Error), Mapping.from_str s = Except.error e → e ≠ Error.UserMissing)
    ∧ (∀ (s : Str) (e : Error), MappingFile.from_str s = Except.error e → e ≠ Error.UserMissing)
    ∧ Mapping.from_str (chars ":h,p,es256,+presence")
      = Except.ok ⟨[], [⟨chars "p", chars "h", chars "es256", [chars "presence"]⟩]⟩ :=
  ⟨fun _ _ h => mapping_from_str_error_ne h,
    fun _ _ h => file_from_str_error_ne h, rfl⟩

/-- Witness for claim C9: the failing line `alice:h` errors with
`HandleMissing`, which is not `UserMissing`. -/
theorem c9_witness : Error.HandleMissing ≠ Error.UserMissing :=
  c9_user_missing_unreachable.1 (chars "alice:h") Error.HandleMissing rfl

end U2F
